import Mathlib

set_option maxRecDepth 4000

/-!
Verification of the CloakShare pixel pipeline (`src/pixel_conversion.rs`) and
screen-capture session state (`src/screen_capture.rs`).

Byte buffers are modelled as `List Nat` (each entry a byte value).  Rust's
`f32` arithmetic in the nearest-neighbor scaler is modelled exactly: an `F32`
is a nonnegative binary floating-point value `m * 2^e` with a 24-bit
significand, and every operation (integer-to-float cast, division,
multiplication) rounds its exact result to nearest, ties to even, exactly as
IEEE-754 single precision does on the value ranges that occur here (all
values are 0 or normal and far from overflow/underflow).
-/

namespace CloakShare

/-- Fuel-driven base-2 logarithm: `log2fuel f n = ⌊log₂ n⌋` whenever
`n < 2^f` (and `n ≥ 1`).  Structural recursion on fuel so that the kernel
can evaluate it. -/
def log2fuel : Nat → Nat → Nat
  | 0, _ => 0
  | f + 1, n => if 2 ≤ n then log2fuel f (n / 2) + 1 else 0

/-- Round `a / b` to the nearest integer, ties to even (`b ≥ 1`). -/
def rneNat (a b : Nat) : Nat :=
  let q := a / b
  let r := a % b
  if b < 2 * r then q + 1
  else if 2 * r < b then q
  else if q % 2 = 1 then q + 1 else q

/-- `⌊log₂ (a / b)⌋` for positive naturals with `a / b > 2^(-200)`. -/
def flog2 (a b : Nat) : Int :=
  (log2fuel 400 (a * 2 ^ 200 / b) : Int) - 200

/-- A nonnegative IEEE-754 single-precision value `m * 2^e`
(`m = 0` or `2^23 ≤ m < 2^24`). -/
structure F32 where
  m : Nat
  e : Int
  deriving DecidableEq, Repr

/-- Round the exact rational `(a / b) * 2^e` (`a, b ≥ 1`) to the nearest
`F32`, ties to even. -/
def rneDiv (a b : Nat) (e : Int) : F32 :=
  let k := flog2 a b
  let s := k - 23
  let m := if s ≤ 0 then rneNat (a * 2 ^ (-s).toNat) b else rneNat a (b * 2 ^ s.toNat)
  if m = 2 ^ 24 then ⟨2 ^ 23, e + s + 1⟩ else ⟨m, e + s⟩

/-- Round the exact value `a * 2^e` to the nearest `F32`, ties to even. -/
def normRound (a : Nat) (e : Int) : F32 :=
  if a = 0 then ⟨0, 0⟩
  else
    let k := log2fuel 400 a
    if k ≤ 23 then ⟨a * 2 ^ (23 - k), e - (23 - k)⟩
    else
      let s := k - 23
      let m := rneNat a (2 ^ s)
      if m = 2 ^ 24 then ⟨2 ^ 23, e + s + 1⟩ else ⟨m, e + s⟩

/-- Rust `usize as f32` (round to nearest, ties to even). -/
def f32ofNat (n : Nat) : F32 := normRound n 0

/-- Rust `f32` division of nonnegative values. -/
def f32div (x y : F32) : F32 := rneDiv x.m y.m (x.e - y.e)

/-- Rust `f32` multiplication of nonnegative values. -/
def f32mul (x y : F32) : F32 := normRound (x.m * y.m) (x.e + y.e)

/-- Rust `f32 as usize` on a nonnegative value: truncation toward zero. -/
def f32truncNat (x : F32) : Nat :=
  if 0 ≤ x.e then x.m * 2 ^ x.e.toNat else x.m / 2 ^ (-x.e).toNat

/-- The source coordinate the scaler computes for destination coordinate `x`:
`((x as f32 * (srcDim as f32 / dstDim as f32)) as usize).min(srcDim.saturating_sub(1))`.
Mirrors `scale_rgba_nearest_neighbor`'s per-axis computation. -/
def scaledCoord (x srcDim dstDim : Nat) : Nat :=
  min (f32truncNat (f32mul (f32ofNat x) (f32div (f32ofNat srcDim) (f32ofNat dstDim))))
    (srcDim - 1)

/-- `bgra_to_rgba_slice`: iterate complete 4-byte groups (`chunks_exact(4)`,
which drops a trailing partial group) and emit `[b[2], b[1], b[0], b[3]]` for
each group. -/
def bgra_to_rgba_slice : List Nat → List Nat
  | b :: g :: r :: a :: rest => r :: g :: b :: a :: bgra_to_rgba_slice rest
  | _ => []

/-- The 4 bytes the scaler's inner loop writes at `dst_idx`: the source pixel
at `src_idx` if the bounds checks pass, otherwise the destination's
zero-initialized bytes are left in place. -/
def scalePixelBytes (src : List Nat) (srcIdx dstIdx dstLen : Nat) : List Nat :=
  if srcIdx + 4 ≤ src.length ∧ dstIdx + 4 ≤ dstLen then
    [src.getD srcIdx 0, src.getD (srcIdx + 1) 0, src.getD (srcIdx + 2) 0,
      src.getD (srcIdx + 3) 0]
  else [0, 0, 0, 0]

/-- `scale_rgba_nearest_neighbor`.  The Rust code allocates a zero vector of
`dst_width * dst_height * 4` bytes, returns it unchanged when any dimension
is zero or the source buffer is shorter than `src_width * src_height * 4`,
and otherwise fills each destination pixel `(x, y)` (each exactly once, in
row-major order) from source pixel `(scaledCoord x, scaledCoord y)` guarded
by the bounds check of `scalePixelBytes`. -/
def scale_rgba_nearest_neighbor (src : List Nat) (sw sh dw dh : Nat) : List Nat :=
  if dw = 0 ∨ dh = 0 ∨ sw = 0 ∨ sh = 0 then List.replicate (dw * dh * 4) 0
  else if src.length < sw * sh * 4 then List.replicate (dw * dh * 4) 0
  else
    (List.range dh).flatMap fun y =>
      (List.range dw).flatMap fun x =>
        scalePixelBytes src
          ((scaledCoord y sh dh * sw + scaledCoord x sw dw) * 4)
          ((y * dw + x) * 4) (dw * dh * 4)

/-- The four-character code `'BGRA'` (`kCVPixelFormatType_32BGRA`). -/
def kCVPixelFormatType_32BGRA : Nat := 0x42475241

/-- `validate_pixel_format`. -/
def validate_pixel_format (format : Nat) : Except String Unit :=
  if format = kCVPixelFormatType_32BGRA then Except.ok ()
  else Except.error ("Unsupported pixel format: " ++ toString format)

/-- The source coordinate the SPEC prescribes: `floor(x * srcDim / dstDim)`
with exact integer arithmetic, clamped to `[0, srcDim - 1]`.  Stated from the
spec's words, for comparison with `scaledCoord`. -/
def floorCoordSpec (x srcDim dstDim : Nat) : Nat :=
  min (x * srcDim / dstDim) (srcDim - 1)

/-- A concrete RGBA buffer for a `(2^24 + 2) x 1` image: byte `i` holds
`i % 256`.  Adjacent pixels differ, so any scaler that merges two source
columns is visible in the output. -/
def bigSrc : List Nat := (List.range ((2 ^ 24 + 2) * 4)).map fun i => i % 256

/-- The `ScreenCaptureManager` state (`src/screen_capture.rs`): the shared
`latest_frame` slot and the optional capture stream handle.  The external
`SCStream` object carries no state the manager reads, so it is modelled as
`Unit`. -/
structure ScreenCaptureManager where
  latest_frame : Option (List Nat)
  stream : Option Unit
  deriving DecidableEq

/-- `ScreenCaptureManager::new`: empty frame slot, no stream. -/
def ScreenCaptureManager.new : ScreenCaptureManager := ⟨none, none⟩

/-- `get_latest_frame`: clone the contents of the frame slot. -/
def ScreenCaptureManager.get_latest_frame (m : ScreenCaptureManager) :
    Option (List Nat) :=
  m.latest_frame

/-- `stop_capture`: `self.stream.take()` clears the stream field (the taken
stream's own `stop_capture` side effect is external); nothing else changes. -/
def ScreenCaptureManager.stop_capture (m : ScreenCaptureManager) :
    ScreenCaptureManager :=
  { m with stream := none }

end CloakShare

namespace CloakShare

/-! ### Indexing lemmas for flat-mapped buffers -/

theorem getD_append_right_of_le {α : Type _} (l l' : List α) (d : α) (n : Nat)
    (h : l.length ≤ n) : (l ++ l').getD n d = l'.getD (n - l.length) d := by
  induction l generalizing n with
  | nil => simp
  | cons a t ih =>
    cases n with
    | zero => simp at h
    | succ m =>
      simp only [List.cons_append, List.getD_cons_succ, List.length_cons]
      rw [ih m (by simpa using h)]
      congr 1
      omega

theorem length_flatMap_fixed {α β : Type _} (l : List β) (f : β → List α)
    (L : Nat) (hL : ∀ b ∈ l, (f b).length = L) :
    (l.flatMap f).length = l.length * L := by
  induction l with
  | nil => simp
  | cons a t ih =>
    simp only [List.flatMap_cons, List.length_append, List.length_cons]
    rw [hL a (by simp), ih fun b hb => hL b (by simp [hb])]
    ring

theorem getD_flatMap_fixed {α β : Type _} (l : List β) (f : β → List α)
    (L : Nat) (d : α) (hL : ∀ b ∈ l, (f b).length = L) :
    ∀ (j k : Nat) (hj : j < l.length), k < L →
      (l.flatMap f).getD (j * L + k) d = (f (l.get ⟨j, hj⟩)).getD k d := by
  induction l with
  | nil => intro j k hj _; simp at hj
  | cons a t ih =>
    intro j k hj hk
    simp only [List.flatMap_cons]
    cases j with
    | zero =>
      have ha : (f a).length = L := hL a (by simp)
      rw [Nat.zero_mul, Nat.zero_add,
        List.getD_append _ _ d k (by rw [ha]; exact hk)]
      rfl
    | succ j =>
      have ha : (f a).length = L := hL a (by simp)
      have hpos : (f a).length ≤ (j + 1) * L + k := by
        rw [ha]; calc L ≤ j * L + L := by omega
          _ = (j + 1) * L := by ring
          _ ≤ (j + 1) * L + k := by omega
      rw [getD_append_right_of_le _ _ d _ hpos, ha]
      have harith : (j + 1) * L + k - L = j * L + k := by
        have : (j + 1) * L = j * L + L := by ring
        omega
      rw [harith, ih (fun b hb => hL b (by simp [hb])) j k (by simpa using hj) hk]
      rfl

theorem getD_flatMap_range {α : Type _} (n : Nat) (f : Nat → List α) (L : Nat)
    (d : α) (hL : ∀ i < n, (f i).length = L) (j k : Nat) (hj : j < n)
    (hk : k < L) :
    ((List.range n).flatMap f).getD (j * L + k) d = (f j).getD k d := by
  have h := getD_flatMap_fixed (List.range n) f L d
    (fun b hb => hL b (List.mem_range.mp hb)) j k (by simpa using hj) hk
  simpa using h

theorem scalePixelBytes_length (src : List Nat) (si di dl : Nat) :
    (scalePixelBytes src si di dl).length = 4 := by
  unfold scalePixelBytes
  split <;> rfl

/-- Each destination byte of the scaler, on well-formed input, is the
corresponding byte of the source pixel selected by `scaledCoord`. -/
theorem scale_getD_aux (src : List Nat) (sw sh dw dh : Nat)
    (hsw : 0 < sw) (hsh : 0 < sh) (hdw : 0 < dw) (hdh : 0 < dh)
    (hlen : sw * sh * 4 ≤ src.length)
    (y x k : Nat) (hy : y < dh) (hx : x < dw) (hk : k < 4) :
    (scale_rgba_nearest_neighbor src sw sh dw dh).getD ((y * dw + x) * 4 + k) 0 =
      src.getD ((scaledCoord y sh dh * sw + scaledCoord x sw dw) * 4 + k) 0 := by
  rw [scale_rgba_nearest_neighbor]
  rw [if_neg (by omega), if_neg (by omega)]
  have hsy : scaledCoord y sh dh < sh :=
    lt_of_le_of_lt (min_le_right _ _) (Nat.sub_lt hsh (by norm_num))
  have hsx : scaledCoord x sw dw < sw :=
    lt_of_le_of_lt (min_le_right _ _) (Nat.sub_lt hsw (by norm_num))
  have hinlen : ∀ i < dh,
      ((List.range dw).flatMap fun xx =>
        scalePixelBytes src ((scaledCoord i sh dh * sw + scaledCoord xx sw dw) * 4)
          ((i * dw + xx) * 4) (dw * dh * 4)).length = dw * 4 := by
    intro i _
    rw [length_flatMap_fixed _ _ 4 fun b _ => scalePixelBytes_length _ _ _ _]
    simp
  have hpos1 : (y * dw + x) * 4 + k = y * (dw * 4) + (x * 4 + k) := by ring
  rw [hpos1, getD_flatMap_range dh _ (dw * 4) 0 hinlen y (x * 4 + k) hy (by omega)]
  rw [getD_flatMap_range dw _ 4 0 (fun i _ => scalePixelBytes_length _ _ _ _) x k hx hk]
  have hsrcIdx :
      (scaledCoord y sh dh * sw + scaledCoord x sw dw) * 4 + 4 ≤ src.length := by
    have h1 : scaledCoord y sh dh * sw + scaledCoord x sw dw < sh * sw := by
      calc scaledCoord y sh dh * sw + scaledCoord x sw dw
          < scaledCoord y sh dh * sw + sw := by omega
        _ = (scaledCoord y sh dh + 1) * sw := by ring
        _ ≤ sh * sw := Nat.mul_le_mul_right _ hsy
    calc (scaledCoord y sh dh * sw + scaledCoord x sw dw) * 4 + 4
        = (scaledCoord y sh dh * sw + scaledCoord x sw dw + 1) * 4 := by ring
      _ ≤ sh * sw * 4 := Nat.mul_le_mul_right _ h1
      _ = sw * sh * 4 := by ring
      _ ≤ src.length := hlen
  have hdstIdx : (y * dw + x) * 4 + 4 ≤ dw * dh * 4 := by
    have h1 : y * dw + x < dh * dw := by
      calc y * dw + x < y * dw + dw := by omega
        _ = (y + 1) * dw := by ring
        _ ≤ dh * dw := Nat.mul_le_mul_right _ hy
    calc (y * dw + x) * 4 + 4 = (y * dw + x + 1) * 4 := by ring
      _ ≤ dh * dw * 4 := Nat.mul_le_mul_right _ h1
      _ = dw * dh * 4 := by ring
  rw [scalePixelBytes, if_pos ⟨by omega, hdstIdx⟩]
  rcases k with _ | _ | _ | _ | k
  · simp
  · simp
  · simp
  · simp
  · omega

/-- Total length of the scaler output, in every branch. -/
theorem scale_length_aux (src : List Nat) (sw sh dw dh : Nat) :
    (scale_rgba_nearest_neighbor src sw sh dw dh).length = dw * dh * 4 := by
  rw [scale_rgba_nearest_neighbor]
  split
  · simp
  · split
    · simp
    · rw [length_flatMap_fixed _ _ (dw * 4) ?_]
      · simp; ring
      · intro b _
        rw [length_flatMap_fixed _ _ 4 fun c _ => scalePixelBytes_length _ _ _ _]
        simp

/-! ### Exactness facts about the `f32` model -/

theorem log2fuel_spec (f : Nat) : ∀ n : Nat, 1 ≤ n → n < 2 ^ f →
    2 ^ log2fuel f n ≤ n ∧ n < 2 ^ (log2fuel f n + 1) := by
  induction f with
  | zero => intro n h1 h2; omega
  | succ f ih =>
    intro n h1 h2
    rw [log2fuel]
    split
    · rename_i hn
      have hpow : (2 : Nat) ^ (f + 1) = 2 * 2 ^ f := by ring
      obtain ⟨hl, hr⟩ := ih (n / 2) (by omega) (by omega)
      have e1 : (2 : Nat) ^ (log2fuel f (n / 2) + 1) = 2 * 2 ^ log2fuel f (n / 2) := by
        ring
      have e2 : (2 : Nat) ^ (log2fuel f (n / 2) + 1 + 1) =
          2 * 2 ^ (log2fuel f (n / 2) + 1) := by ring
      omega
    · have : (2 : Nat) ^ (0 + 1) = 2 := by norm_num
      omega

theorem log2fuel_eq_of (f n k : Nat) (hf : n < 2 ^ f) (hl : 2 ^ k ≤ n)
    (hr : n < 2 ^ (k + 1)) : log2fuel f n = k := by
  have h1 : 1 ≤ n := le_trans (Nat.one_le_two_pow) hl
  obtain ⟨a, b⟩ := log2fuel_spec f n h1 hf
  rcases lt_trichotomy (log2fuel f n) k with h | h | h
  · have : (2 : Nat) ^ (log2fuel f n + 1) ≤ 2 ^ k :=
      Nat.pow_le_pow_right (by norm_num) (by omega)
    omega
  · exact h
  · have : (2 : Nat) ^ (k + 1) ≤ 2 ^ log2fuel f n :=
      Nat.pow_le_pow_right (by norm_num) (by omega)
    omega

theorem rneNat_exact (a b : Nat) (hb : 0 < b) (hmod : a % b = 0) :
    rneNat a b = a / b := by
  unfold rneNat
  rw [hmod]
  rw [if_neg (by omega), if_pos (by omega)]

theorem f32ofNat_eq_small (n : Nat) (h1 : 1 ≤ n) (h2 : n < 2 ^ 24) :
    f32ofNat n =
      ⟨n * 2 ^ (23 - log2fuel 400 n), 0 - ((23 - log2fuel 400 n : Nat) : Int)⟩ := by
  have hk := log2fuel_spec 400 n h1 (lt_trans h2 (by norm_num))
  have hk23 : log2fuel 400 n ≤ 23 := by
    by_contra hc
    have : (2 : Nat) ^ 24 ≤ 2 ^ log2fuel 400 n :=
      Nat.pow_le_pow_right (by norm_num) (by omega)
    omega
  simp only [f32ofNat, normRound]
  rw [if_neg (by omega), if_pos hk23]
  simp only [F32.mk.injEq]
  exact ⟨trivial, by omega⟩

theorem f32ofNat_bounds (n : Nat) (h1 : 1 ≤ n) (h2 : n ≤ 2 ^ 24) :
    2 ^ 23 ≤ (f32ofNat n).m ∧ (f32ofNat n).m < 2 ^ 24 := by
  rcases Nat.lt_or_ge n (2 ^ 24) with h | h
  · rw [f32ofNat_eq_small n h1 h]
    obtain ⟨hl, hr⟩ := log2fuel_spec 400 n h1 (lt_trans h (by norm_num))
    have hk23 : log2fuel 400 n ≤ 23 := by
      by_contra hc
      have : (2 : Nat) ^ 24 ≤ 2 ^ log2fuel 400 n :=
        Nat.pow_le_pow_right (by norm_num) (by omega)
      omega
    constructor
    · calc (2 : Nat) ^ 23
          = 2 ^ log2fuel 400 n * 2 ^ (23 - log2fuel 400 n) := by
            rw [← pow_add]; congr 1; omega
        _ ≤ n * 2 ^ (23 - log2fuel 400 n) := Nat.mul_le_mul_right _ hl
    · calc n * 2 ^ (23 - log2fuel 400 n)
          < 2 ^ (log2fuel 400 n + 1) * 2 ^ (23 - log2fuel 400 n) :=
            (Nat.mul_lt_mul_right (Nat.pos_pow_of_pos _ (by norm_num))).mpr hr
        _ = 2 ^ 24 := by rw [← pow_add]; congr 1; omega
  · have hn : n = 2 ^ 24 := by omega
    subst hn
    decide

theorem f32truncNat_shift (a t : Nat) :
    f32truncNat ⟨a * 2 ^ t, 0 - (t : Int)⟩ = a := by
  simp only [f32truncNat]
  split
  · rename_i h
    have ht : t = 0 := by omega
    subst ht
    simp
  · rename_i h
    have h2 : (-((0 : Int) - (t : Nat))).toNat = t := by omega
    simp only [h2]
    exact Nat.mul_div_cancel _ (Nat.pos_pow_of_pos _ (by norm_num))

theorem f32truncNat_ofNat (n : Nat) (h2 : n ≤ 2 ^ 24) :
    f32truncNat (f32ofNat n) = n := by
  rcases Nat.eq_zero_or_pos n with h | h
  · subst h; decide
  · rcases Nat.lt_or_ge n (2 ^ 24) with hlt | hge
    · rw [f32ofNat_eq_small n h hlt]
      exact f32truncNat_shift n _
    · have hn : n = 2 ^ 24 := by omega
      subst hn
      decide

theorem f32div_self (x : F32) (h : 1 ≤ x.m) : f32div x x = ⟨2 ^ 23, -23⟩ := by
  simp only [f32div, rneDiv, flog2]
  have h200 : x.m * 2 ^ 200 / x.m = 2 ^ 200 := Nat.mul_div_cancel_left _ (by omega)
  rw [h200]
  have hlog : log2fuel 400 (2 ^ 200) = 200 := by decide
  rw [hlog]
  norm_num
  have hmod : x.m * 2 ^ 23 % x.m = 0 := Nat.mul_mod_right _ _
  have hr : rneNat (x.m * 2 ^ 23) x.m = 2 ^ 23 := by
    rw [rneNat_exact _ _ (by omega) hmod]
    exact Nat.mul_div_cancel_left _ (by omega)
  rw [show (2 : Nat) ^ Int.toNat 23 = 2 ^ 23 from rfl, hr]
  norm_num

theorem f32mul_one (x : F32) (hl : 2 ^ 23 ≤ x.m) (hr : x.m < 2 ^ 24) :
    f32mul x ⟨2 ^ 23, -23⟩ = x := by
  simp only [f32mul, normRound]
  have ha1 : 2 ^ 46 ≤ x.m * 2 ^ 23 := by
    calc (2 : Nat) ^ 46 = 2 ^ 23 * 2 ^ 23 := by norm_num
      _ ≤ x.m * 2 ^ 23 := Nat.mul_le_mul_right _ hl
  have ha2 : x.m * 2 ^ 23 < 2 ^ 47 := by
    calc x.m * 2 ^ 23 < 2 ^ 24 * 2 ^ 23 :=
        (Nat.mul_lt_mul_right (by norm_num)).mpr hr
      _ = 2 ^ 47 := by norm_num
  have hk : log2fuel 400 (x.m * 2 ^ 23) = 46 :=
    log2fuel_eq_of 400 _ 46 (lt_trans ha2 (by norm_num)) ha1 (by norm_num at ha2 ⊢; omega)
  rw [if_neg (by omega), hk, if_neg (by norm_num)]
  have hm : rneNat (x.m * 2 ^ 23) (2 ^ (46 - 23)) = x.m := by
    have : (46 : Nat) - 23 = 23 := by norm_num
    rw [this, rneNat_exact _ _ (by norm_num) (Nat.mul_mod_left _ _)]
    exact Nat.mul_div_cancel _ (by norm_num)
  rw [hm, if_neg (by omega)]
  have he : x.e + -23 + ((46 - 23 : Nat) : Int) = x.e := by omega
  rw [he]

theorem scaledCoord_self (x d : Nat) (hx : x < d) (hd : d ≤ 2 ^ 24 + 1) :
    scaledCoord x d d = x := by
  have hd1 : 1 ≤ d := by omega
  have hdm : 1 ≤ (f32ofNat d).m := by
    rcases Nat.lt_or_ge d (2 ^ 24 + 1) with h | h
    · have := (f32ofNat_bounds d hd1 (by omega)).1
      omega
    · have hd' : d = 2 ^ 24 + 1 := by omega
      subst hd'
      have : (f32ofNat (2 ^ 24 + 1)).m = 2 ^ 23 := by decide
      omega
  unfold scaledCoord
  rw [f32div_self _ hdm]
  rcases Nat.eq_zero_or_pos x with h0 | h0
  · subst h0
    have ht : f32truncNat (f32mul (f32ofNat 0) ⟨2 ^ 23, -23⟩) = 0 := by decide
    rw [ht]
    simp
  · have hb := f32ofNat_bounds x h0 (by omega)
    rw [f32mul_one (f32ofNat x) hb.1 hb.2, f32truncNat_ofNat x (by omega)]
    exact min_eq_left (by omega)

/-! ### Claims -/

/-- C2: for every input buffer of length `4 * n` and pixel index `i < n`,
`bgra_to_rgba_slice` maps the group `(c0, c1, c2, c3)` at bytes
`4i .. 4i+3` to `(c2, c1, c0, c3)`: byte `4i` of the output is input byte
`4i+2`, byte `4i+1` is input byte `4i+1`, byte `4i+2` is input byte `4i`,
and byte `4i+3` is input byte `4i+3`. -/
theorem claim_C2_bgra_swizzle (l : List Nat) (n i : Nat)
    (hlen : l.length = 4 * n) (hi : i < n) :
    (bgra_to_rgba_slice l).getD (4 * i) 0 = l.getD (4 * i + 2) 0 ∧
    (bgra_to_rgba_slice l).getD (4 * i + 1) 0 = l.getD (4 * i + 1) 0 ∧
    (bgra_to_rgba_slice l).getD (4 * i + 2) 0 = l.getD (4 * i) 0 ∧
    (bgra_to_rgba_slice l).getD (4 * i + 3) 0 = l.getD (4 * i + 3) 0 := by
  induction i generalizing l n with
  | zero =>
    rcases l with _ | ⟨c0, l⟩
    · simp at hlen; omega
    rcases l with _ | ⟨c1, l⟩
    · simp at hlen; omega
    rcases l with _ | ⟨c2, l⟩
    · simp at hlen; omega
    rcases l with _ | ⟨c3, l⟩
    · simp at hlen; omega
    simp [bgra_to_rgba_slice]
  | succ i ih =>
    rcases l with _ | ⟨c0, l⟩
    · simp at hlen; omega
    rcases l with _ | ⟨c1, l⟩
    · simp at hlen; omega
    rcases l with _ | ⟨c2, l⟩
    · simp at hlen; omega
    rcases l with _ | ⟨c3, l⟩
    · simp at hlen; omega
    have E0 : 4 * (i + 1) = 4 * i + 1 + 1 + 1 + 1 := by ring
    have hlen' : l.length = 4 * (n - 1) := by
      simp only [List.length_cons] at hlen
      omega
    simp only [bgra_to_rgba_slice, E0, List.getD_cons_succ]
    exact ih l (n - 1) hlen' (by omega)

/-- C2 witness: concrete two-pixel buffer, second pixel. -/
theorem claim_C2_bgra_swizzle_witness :
    ([10, 20, 30, 255, 40, 50, 60, 128] : List Nat).length = 4 * 2 ∧ 1 < 2 ∧
    (bgra_to_rgba_slice [10, 20, 30, 255, 40, 50, 60, 128]).getD (4 * 1) 0 =
      ([10, 20, 30, 255, 40, 50, 60, 128] : List Nat).getD (4 * 1 + 2) 0 :=
  ⟨by decide, by decide,
    (claim_C2_bgra_swizzle [10, 20, 30, 255, 40, 50, 60, 128] 2 1 (by decide)
      (by decide)).1⟩

/-- C1 counterexample: with `src_w = 2`, `src_h = 1`, `dst_w = 82`,
`dst_h = 1` and destination pixel `(x, y) = (41, 0)`, the exact-arithmetic
source coordinate is `floor(41 * 2 / 82) = 1`, but the code's `f32`
computation selects source pixel 0: the output byte is 1 (source pixel 0),
not 5 (source pixel 1) as the claim requires. -/
theorem claim_C1_counterexample :
    ¬ ((scale_rgba_nearest_neighbor [1, 2, 3, 4, 5, 6, 7, 8] 2 1 82 1).getD
        ((0 * 82 + 41) * 4) 0 =
      ([1, 2, 3, 4, 5, 6, 7, 8] : List Nat).getD
        ((floorCoordSpec 0 1 1 * 2 + floorCoordSpec 41 2 82) * 4) 0) := by
  decide

/-- C1 (amended): for every call with all dimensions nonzero and `src` at
least `src_w * src_h * 4` bytes long, and every destination pixel `(x, y)`,
the 4 output bytes at `(y * dst_w + x) * 4` equal the 4 source bytes of the
source pixel at `src_x = trunc(x as f32 * (src_w as f32 / dst_w as f32))`
clamped to `[0, src_w - 1]` and `src_y` likewise — i.e. the coordinates
computed in single-precision floating point as the code performs them
(`scaledCoord`), which need not equal exact `floor(x * src_w / dst_w)`. -/
theorem claim_C1_amended (src : List Nat) (sw sh dw dh : Nat)
    (hsw : 0 < sw) (hsh : 0 < sh) (hdw : 0 < dw) (hdh : 0 < dh)
    (hlen : sw * sh * 4 ≤ src.length)
    (y x k : Nat) (hy : y < dh) (hx : x < dw) (hk : k < 4) :
    (scale_rgba_nearest_neighbor src sw sh dw dh).getD ((y * dw + x) * 4 + k) 0 =
      src.getD ((scaledCoord y sh dh * sw + scaledCoord x sw dw) * 4 + k) 0 :=
  scale_getD_aux src sw sh dw dh hsw hsh hdw hdh hlen y x k hy hx hk

/-- C1 (amended) witness: 2x1 source upscaled to 3x1, pixel `(2, 0)`. -/
theorem claim_C1_amended_witness :
    0 < 2 ∧ 0 < 1 ∧ 0 < 3 ∧ 2 * 1 * 4 ≤ ([1, 2, 3, 4, 5, 6, 7, 8] : List Nat).length ∧
    (scale_rgba_nearest_neighbor [1, 2, 3, 4, 5, 6, 7, 8] 2 1 3 1).getD
        ((0 * 3 + 2) * 4 + 0) 0 =
      ([1, 2, 3, 4, 5, 6, 7, 8] : List Nat).getD
        ((scaledCoord 0 1 1 * 2 + scaledCoord 2 2 3) * 4 + 0) 0 :=
  ⟨by decide, by decide, by decide, by decide,
    claim_C1_amended [1, 2, 3, 4, 5, 6, 7, 8] 2 1 3 1 (by decide) (by decide)
      (by decide) (by decide) (by decide) 0 2 0 (by decide) (by decide) (by decide)⟩

/-- C3: when the source buffer is shorter than `src_w * src_h * 4` bytes the
scaler performs no out-of-bounds access (it is a total function in this
model) and returns the all-zero buffer of exactly `dst_w * dst_h * 4`
bytes. -/
theorem claim_C3_short_src_all_zero (src : List Nat) (sw sh dw dh : Nat)
    (h : src.length < sw * sh * 4) :
    scale_rgba_nearest_neighbor src sw sh dw dh =
      List.replicate (dw * dh * 4) 0 := by
  rw [scale_rgba_nearest_neighbor]
  split <;> rfl

/-- C3 witness: 3-byte source declared as 1x1 (needs 4 bytes), scaled to 2x1. -/
theorem claim_C3_short_src_all_zero_witness :
    ([9, 9, 9] : List Nat).length < 1 * 1 * 4 ∧
    scale_rgba_nearest_neighbor [9, 9, 9] 1 1 2 1 = List.replicate (2 * 1 * 4) 0 :=
  ⟨by decide, claim_C3_short_src_all_zero [9, 9, 9] 1 1 2 1 (by decide)⟩

/-- C4: for every source buffer and all dimensions, the scaler's result has
length exactly `dst_w * dst_h * 4`; in particular a zero destination
dimension yields the empty buffer. -/
theorem claim_C4_output_length (src : List Nat) (sw sh dw dh : Nat) :
    (scale_rgba_nearest_neighbor src sw sh dw dh).length = dw * dh * 4 :=
  scale_length_aux src sw sh dw dh

/-- C5 counterexample: identity scaling of a `(2^24 + 2) x 1` buffer is NOT
a no-op.  Destination column `x = 2^24 + 1` is not representable in `f32`
(`x as f32` rounds to `2^24`), so that output pixel is copied from source
column `2^24` and differs from the input. -/
theorem claim_C5_counterexample :
    scale_rgba_nearest_neighbor bigSrc (2 ^ 24 + 2) 1 (2 ^ 24 + 2) 1 ≠ bigSrc := by
  intro hEq
  have hlen : bigSrc.length = (2 ^ 24 + 2) * 4 := by
    simp [bigSrc]
  have hval : ∀ j, j < (2 ^ 24 + 2) * 4 → bigSrc.getD j 0 = j % 256 := by
    intro j hj
    have hj' : j < bigSrc.length := by omega
    rw [List.getD_eq_getElem _ _ hj']
    simp only [bigSrc, List.getElem_map, List.getElem_range]
  have hgd := scale_getD_aux bigSrc (2 ^ 24 + 2) 1 (2 ^ 24 + 2) 1 (by norm_num)
    (by norm_num) (by norm_num) (by norm_num) (by omega)
    0 (2 ^ 24 + 1) 0 (by norm_num) (by norm_num) (by norm_num)
  have hc0 : scaledCoord 0 1 1 = 0 := by decide
  have hc1 : scaledCoord (2 ^ 24 + 1) (2 ^ 24 + 2) (2 ^ 24 + 2) = 2 ^ 24 := by
    decide
  rw [hEq, hc0, hc1] at hgd
  rw [hval _ (by norm_num), hval _ (by norm_num)] at hgd
  norm_num at hgd

/-- C5 (amended): identity scaling is a no-op for every buffer of exactly
`w * h * 4` bytes whose dimensions both fit exactly in `f32`
(`w, h ≤ 2^24 + 1`, so that every coordinate below them casts exactly);
beyond that the `f32` cast of a destination coordinate can round and the
claim fails (see the counterexample). -/
theorem claim_C5_identity_amended (src : List Nat) (w h : Nat)
    (hw1 : 1 ≤ w) (hh1 : 1 ≤ h) (hw : w ≤ 2 ^ 24 + 1) (hh : h ≤ 2 ^ 24 + 1)
    (hsrc : src.length = w * h * 4) :
    scale_rgba_nearest_neighbor src w h w h = src := by
  apply List.ext_getElem
  · rw [scale_length_aux, hsrc]
  · intro i h₁ h₂
    rw [← List.getD_eq_getElem _ 0 h₁, ← List.getD_eq_getElem _ 0 h₂]
    have hi : i < w * h * 4 := by rw [scale_length_aux] at h₁; exact h₁
    have hk : i % 4 < 4 := Nat.mod_lt _ (by norm_num)
    have hp : i / 4 < w * h := by omega
    have hx : (i / 4) % w < w := Nat.mod_lt _ (by omega)
    have hy : (i / 4) / w < h := by
      rw [Nat.div_lt_iff_lt_mul (by omega)]
      rw [Nat.mul_comm w h] at hp
      exact hp
    have hidx : ((i / 4) / w * w + (i / 4) % w) * 4 + i % 4 = i := by
      have e1 : (i / 4) / w * w + (i / 4) % w = i / 4 := by
        calc (i / 4) / w * w + (i / 4) % w
            = w * ((i / 4) / w) + (i / 4) % w := by ring
          _ = i / 4 := Nat.div_add_mod _ _
      rw [e1]
      omega
    rw [← hidx]
    rw [scale_getD_aux src w h w h (by omega) (by omega) (by omega) (by omega)
      (by omega) _ _ _ hy hx hk]
    rw [scaledCoord_self _ _ hy hh, scaledCoord_self _ _ hx hw]

/-- C5 (amended) witness: identity scaling of a 2x1 buffer. -/
theorem claim_C5_identity_amended_witness :
    1 ≤ 2 ∧ 1 ≤ 1 ∧ (2 : Nat) ≤ 2 ^ 24 + 1 ∧ (1 : Nat) ≤ 2 ^ 24 + 1 ∧
    ([5, 6, 7, 8, 9, 10, 11, 12] : List Nat).length = 2 * 1 * 4 ∧
    scale_rgba_nearest_neighbor [5, 6, 7, 8, 9, 10, 11, 12] 2 1 2 1 =
      [5, 6, 7, 8, 9, 10, 11, 12] :=
  ⟨by decide, by decide, by norm_num, by norm_num, by decide,
    claim_C5_identity_amended [5, 6, 7, 8, 9, 10, 11, 12] 2 1 (by decide)
      (by decide) (by norm_num) (by norm_num) (by decide)⟩

/-- C6: a downscaling call with nonzero dimensions and a large-enough source
yields a buffer of length `dst_w * dst_h * 4` in which every 4-byte output
pixel equals some 4-byte pixel group of the source (the one selected
deterministically by `scaledCoord`). -/
theorem claim_C6_downscale_pixels_from_source (src : List Nat)
    (sw sh dw dh : Nat) (hsw : 0 < sw) (hsh : 0 < sh) (hdw : 0 < dw)
    (hdh : 0 < dh) (_hw : dw ≤ sw) (_hh : dh ≤ sh)
    (hlen : sw * sh * 4 ≤ src.length) :
    (scale_rgba_nearest_neighbor src sw sh dw dh).length = dw * dh * 4 ∧
    ∀ y x, y < dh → x < dw → ∃ j, j < sw * sh ∧ ∀ k, k < 4 →
      (scale_rgba_nearest_neighbor src sw sh dw dh).getD ((y * dw + x) * 4 + k) 0 =
        src.getD (j * 4 + k) 0 := by
  refine ⟨scale_length_aux src sw sh dw dh, fun y x hy hx => ?_⟩
  refine ⟨scaledCoord y sh dh * sw + scaledCoord x sw dw, ?_, fun k hk => ?_⟩
  · have hsy : scaledCoord y sh dh < sh :=
      lt_of_le_of_lt (min_le_right _ _) (Nat.sub_lt hsh (by norm_num))
    have hsx : scaledCoord x sw dw < sw :=
      lt_of_le_of_lt (min_le_right _ _) (Nat.sub_lt hsw (by norm_num))
    calc scaledCoord y sh dh * sw + scaledCoord x sw dw
        < scaledCoord y sh dh * sw + sw := by omega
      _ = (scaledCoord y sh dh + 1) * sw := by ring
      _ ≤ sh * sw := Nat.mul_le_mul_right _ hsy
      _ = sw * sh := by ring
  · exact scale_getD_aux src sw sh dw dh hsw hsh hdw hdh hlen y x k hy hx hk

/-- C6 witness: 2x2 source downscaled to 1x1. -/
theorem claim_C6_downscale_pixels_from_source_witness :
    (0 : Nat) < 2 ∧ (0 : Nat) < 1 ∧ (1 : Nat) ≤ 2 ∧
    2 * 2 * 4 ≤ ([255, 0, 0, 255, 0, 255, 0, 255, 0, 0, 255, 255, 255, 255, 0,
      255] : List Nat).length ∧
    ((scale_rgba_nearest_neighbor [255, 0, 0, 255, 0, 255, 0, 255, 0, 0, 255,
        255, 255, 255, 0, 255] 2 2 1 1).length = 1 * 1 * 4 ∧
      ∀ y x, y < 1 → x < 1 → ∃ j, j < 2 * 2 ∧ ∀ k, k < 4 →
        (scale_rgba_nearest_neighbor [255, 0, 0, 255, 0, 255, 0, 255, 0, 0, 255,
          255, 255, 255, 0, 255] 2 2 1 1).getD ((y * 1 + x) * 4 + k) 0 =
          ([255, 0, 0, 255, 0, 255, 0, 255, 0, 0, 255, 255, 255, 255, 0,
            255] : List Nat).getD (j * 4 + k) 0) :=
  ⟨by decide, by decide, by decide, by decide,
    claim_C6_downscale_pixels_from_source _ 2 2 1 1 (by decide) (by decide)
      (by decide) (by decide) (by decide) (by decide) (by decide)⟩

/-- C7: `validate_pixel_format` accepts exactly the `'BGRA'` four-character
code `kCVPixelFormatType_32BGRA` and rejects every other format code with an
"Unsupported pixel format" error. -/
theorem claim_C7_validate_pixel_format :
    (∀ f, validate_pixel_format f = Except.ok () ↔
      f = kCVPixelFormatType_32BGRA) ∧
    ∀ f, f ≠ kCVPixelFormatType_32BGRA →
      validate_pixel_format f =
        Except.error ("Unsupported pixel format: " ++ toString f) := by
  constructor
  · intro f
    unfold validate_pixel_format
    constructor
    · intro h
      by_contra hc
      rw [if_neg hc] at h
      exact Except.noConfusion h
    · intro h
      rw [if_pos h]
  · intro f h
    unfold validate_pixel_format
    rw [if_neg h]

/-- C7 witness: the YUV four-character code 875704438 is rejected with the
"Unsupported pixel format" message, and the BGRA code is accepted. -/
theorem claim_C7_validate_pixel_format_witness :
    (875704438 : Nat) ≠ kCVPixelFormatType_32BGRA ∧
    validate_pixel_format 875704438 =
      Except.error ("Unsupported pixel format: " ++ toString (875704438 : Nat)) :=
  ⟨by decide, claim_C7_validate_pixel_format.2 875704438 (by decide)⟩

/-- C8: a freshly constructed `ScreenCaptureManager` on which no capture was
ever started reports no latest frame. -/
theorem claim_C8_new_manager_no_frame :
    ScreenCaptureManager.new.get_latest_frame = none := rfl

/-- C9: `stop_capture` is idempotent — stopping twice equals stopping once,
and stopping a manager with no active stream leaves it unchanged. -/
theorem claim_C9_stop_capture_idempotent (m : ScreenCaptureManager) :
    m.stop_capture.stop_capture = m.stop_capture ∧
    (m.stream = none → m.stop_capture = m) := by
  constructor
  · rfl
  · intro h
    cases m with
    | mk lf st =>
      simp only [ScreenCaptureManager.stop_capture]
      simp only at h
      rw [h]

/-- C9 witness: a manager holding a frame and no stream. -/
theorem claim_C9_stop_capture_idempotent_witness :
    (⟨some [1, 2], none⟩ : ScreenCaptureManager).stop_capture.stop_capture =
      (⟨some [1, 2], none⟩ : ScreenCaptureManager).stop_capture ∧
    (⟨some [1, 2], none⟩ : ScreenCaptureManager).stop_capture =
      ⟨some [1, 2], none⟩ :=
  ⟨(claim_C9_stop_capture_idempotent ⟨some [1, 2], none⟩).1,
    (claim_C9_stop_capture_idempotent ⟨some [1, 2], none⟩).2 rfl⟩

/-- C10: `stop_capture` never touches the `latest_frame` slot: the frame
reported after stopping equals the frame reported before. -/
theorem claim_C10_stop_preserves_frame (m : ScreenCaptureManager) :
    m.stop_capture.get_latest_frame = m.get_latest_frame := rfl

end CloakShare
